import Mathlib

/-
Verification of the bounded, cancellable worker-pool job-dispatch engine.

The source is a Go file with four pool variants:
  * basicWorkerPool / basicWorker            (finite batch, no failures)
  * workerPoolWithErrors / errorProneWorker  (finite batch, per-job failures)
  * workerPoolWithContext / contextWorker    (generative dispatcher, context
    cancellation, WaitGroup, collector goroutine)
  * rateLimitedWorkerPool / rateLimitedWorker (token-bucket rate limiter with
    a ticker-driven refill goroutine)

Pure per-job behaviour is embedded as Lean functions; the concurrent pools
are embedded as small-step interleaved state machines whose transitions are
translated clause by clause from the Go select statements and channel
operations.  Buffered channels become lists with a capacity guard and a
closed flag; `context.WithTimeout` becomes a monotone cancellation flag that
may be raised by a nondeterministic step (real durations are abstracted into
scheduler nondeterminism).
-/

/-- A unit of work (Go: `type Job struct { ID int; Data string }`). -/
structure Job where
  id   : Nat
  data : String
deriving DecidableEq

/-- The error values the workers construct (`fmt.Errorf` calls in the
source); the two shapes that occur are a per-job domain failure and a
cancellation notice. -/
inductive ErrVal where
  | workerFailure (msg : String)
  | cancelledErr (msg : String)
deriving DecidableEq

/-- The outcome of one job (Go: `type Result struct { Job Job; Output string;
Error error }`).  `Output` keeps the Go zero value `""` when unset and `Error`
is an `Option`, matching a nil-able `error` field. -/
structure Result where
  job    : Job
  output : String := ""
  error  : Option ErrVal := none
deriving DecidableEq

/-- Body of one iteration of `basicWorker`: every job yields a success
result with the worker's formatted output. -/
def basicWorkerStep (id : Nat) (job : Job) : Result :=
  { job := job, output := "Processed " ++ job.data ++ " by worker " ++ toString id }

/-- The loop of `basicWorker` (`for job := range jobs`), one result
per received job. -/
def basicWorker (id : Nat) (jobs : List Job) : List Result :=
  jobs.map (basicWorkerStep id)

/-- Body of one iteration of `errorProneWorker`.  The `rand.Intn(10) < 3`
draw is abstracted into the boolean `fail` (the oracle for this job). -/
def errorProneWorkerStep (id : Nat) (fail : Bool) (job : Job) : Result :=
  if fail then
    { job := job, error := some (.workerFailure ("worker " ++ toString id ++ ": random failure")) }
  else
    { job := job, output := "Successfully processed by worker " ++ toString id }

/-- The loop of `errorProneWorker`: one result per received job, success or failure
according to the random-draw oracle. -/
def errorProneWorker (id : Nat) (oracle : Job → Bool) (jobs : List Job) : List Result :=
  jobs.map (fun j => errorProneWorkerStep id (oracle j) j)

/-- The finite dispatch loops (`for j := 1; j <= n; j++ { jobs <- Job{...} }`):
jobs numbered 1..n with formatted payloads. -/
def dispatchFinite (n : Nat) (mkData : Nat → String) : List Job :=
  (List.range n).map (fun k => { id := k + 1, data := mkData (k + 1) })

/-- One worker's share of the dispatched jobs together with its worker id;
a whole pool run is a list of such shares. -/
def poolRunResults (oracle : Job → Bool) (shares : List (Nat × List Job)) : List Result :=
  (shares.map (fun p => errorProneWorker p.1 oracle p.2)).flatten

/-- The collector's failure count (`result.Error != nil` branch). -/
def countFailures (rs : List Result) : Nat :=
  rs.countP (fun r => r.error.isSome)

/-- The collector's success count (`result.Error == nil` branch). -/
def countSuccesses (rs : List Result) : Nat :=
  rs.countP (fun r => r.error.isNone)

/-- Results whose error is the cancellation kind. -/
def isCancelledResult (r : Result) : Bool :=
  match r.error with
  | some (.cancelledErr _) => true
  | _ => false

/-- Count of cancellation results among the collected results. -/
def countCancelled (rs : List Result) : Nat :=
  rs.countP isCancelledResult

/-- A result carries exactly one of an output or an error (output presence
is the Go condition `Output != ""`, error presence `Error != nil`). -/
def hasExactlyOne (r : Result) : Prop :=
  (r.error = none ∧ r.output ≠ "") ∨ (r.error ≠ none ∧ r.output = "")

/-- Success result of `contextWorker` (Go: `Output: fmt.Sprintf("Completed by
worker %d", id)`). -/
def mkContextNormal (id : Nat) (job : Job) : Result :=
  { job := job, output := "Completed by worker " ++ toString id }

/-- Cancellation result of `contextWorker` (Go: `Error: fmt.Errorf("worker %d:
context cancelled", id)`). -/
def mkContextCancelled (id : Nat) (job : Job) : Result :=
  { job := job, error := some (.cancelledErr ("worker " ++ toString id ++ ": context cancelled")) }

/-- Success result of `rateLimitedWorker`. -/
def mkRateLimited (id : Nat) (job : Job) : Result :=
  { job := job, output := "Rate-limited processing by worker " ++ toString id }

/-- Local state of a `contextWorker` goroutine.  `selecting` is the select on
the jobs channel versus `ctx.Done()`; `claimed` holds a received job before
the `ctx.Err()` check; `working` is the simulated work; `pushing r exit` is
the blocking `results <- r` send, with `exit = true` when the worker returns
after the send (the cancelled-job branch) and `exit = false` when it loops. -/
inductive WState where
  | selecting
  | claimed (j : Job)
  | working (j : Job)
  | pushing (r : Result) (exit : Bool)
  | stopped
deriving DecidableEq

/-- Local state of the job-sender goroutine of `workerPoolWithContext`
(the dispatcher): `sending j` is its select sending job number `j`. -/
inductive SState where
  | sending (next : Nat)
  | stopped
deriving DecidableEq

/-- Local state of the result-collector goroutine. -/
inductive CState where
  | waiting
  | stopped
deriving DecidableEq

/-- Local state of the main routine of `workerPoolWithContext`: blocked on
`<-ctx.Done()`, then on `wg.Wait()`, then returned. -/
inductive MState where
  | waitCtx
  | waitWg
  | returned
deriving DecidableEq

/-- Global state of `workerPoolWithContext`: the two buffered channels (lists
with a capacity guard; `jobsClosed` is the closed flag of the jobs channel), the
monotone cancellation flag of the timeout context, running counts of jobs
ever sent and results ever pushed, and the local state of each goroutine
(two workers, the sender, the collector, and main). -/
structure PoolState where
  cancelled  : Bool
  jobsQ      : List Job
  jobsClosed : Bool
  resultsQ   : List Result
  dispatched : Nat
  produced   : Nat
  collected  : Nat
  workerA    : WState
  workerB    : WState
  sender     : SState
  collector  : CState
  main       : MState
deriving DecidableEq

/-- Capacity of the jobs channel (`make(chan Job, 20)`). -/
def jobsCap : Nat := 20

/-- Capacity of the results channel (`make(chan Result, 20)`). -/
def resultsCap : Nat := 20

/-- Worker index: the pool spawns two workers; `false` is worker 1 and
`true` is worker 2 (`for w := 1; w <= 2; w++`). -/
def widNum (i : Bool) : Nat := if i then 2 else 1

/-- The local state of worker `i`. -/
def PoolState.w (s : PoolState) (i : Bool) : WState :=
  if i then s.workerB else s.workerA

/-- Replace the local state of worker `i`. -/
def setW (s : PoolState) (i : Bool) (v : WState) : PoolState :=
  if i then { s with workerB := v } else { s with workerA := v }

/-- The job the sender builds on iteration `j`
(`Job{ID: j, Data: fmt.Sprintf("urgent-task-%d", j)}`). -/
def mkJob (j : Nat) : Job :=
  { id := j, data := "urgent-task-" ++ toString j }

/-- A scheduler choice: which goroutine takes its next atomic step, and for
a select, which ready branch it commits to. -/
inductive Choice where
  | cancel
  | senderSend
  | senderStop
  | workerClaim (i : Bool)
  | workerClosed (i : Bool)
  | workerStop (i : Bool)
  | workerCheck (i : Bool)
  | workerWork (i : Bool)
  | workerPush (i : Bool)
  | collectorRecv
  | collectorStop
  | mainObserve
  | mainWait
deriving DecidableEq

/-- One interleaved small step of `workerPoolWithContext`, translated clause
by clause from the Go source.  `none` means the chosen branch is not enabled
in this state (the goroutine would stay blocked there).

  * `cancel`: the 3-second timeout of `context.WithTimeout` fires (durations
    are abstracted; the flag is monotone and raised once).
  * `senderSend` / `senderStop`: the sender's select — either
    `jobs <- Job{...}` (needs buffer space) or `<-ctx.Done()`, which returns
    and runs `defer close(jobs)`.
  * `workerClaim` / `workerClosed` / `workerStop`: the worker's select —
    receive a job, observe the jobs channel closed and empty (`!ok`),
    or `<-ctx.Done()`.
  * `workerCheck`: the `if ctx.Err() != nil` test after a claim: when
    cancelled the worker readies the `Result{Error: ...}` send and will
    return; otherwise it proceeds to the simulated work.
  * `workerWork`: the `time.Sleep(800ms)` body completes.
  * `workerPush`: the bare `results <- r` send (needs buffer space; note it
    is not a select and has no cancellation alternative).
  * `collectorRecv` / `collectorStop`: the collector's select.
  * `mainObserve` / `mainWait`: main passes `<-ctx.Done()`, then `wg.Wait()`
    returns once both workers have run `defer wg.Done()`. -/
def step (s : PoolState) : Choice → Option PoolState
  | .cancel =>
      if s.cancelled then none else some { s with cancelled := true }
  | .senderSend =>
      match s.sender with
      | .sending j =>
          if s.jobsQ.length < jobsCap then
            some { s with jobsQ := s.jobsQ ++ [mkJob j],
                          dispatched := s.dispatched + 1,
                          sender := .sending (j + 1) }
          else none
      | .stopped => none
  | .senderStop =>
      match s.sender with
      | .sending _ =>
          if s.cancelled then
            some { s with sender := .stopped, jobsClosed := true }
          else none
      | .stopped => none
  | .workerClaim i =>
      match s.w i, s.jobsQ with
      | .selecting, j :: rest => some (setW { s with jobsQ := rest } i (.claimed j))
      | _, _ => none
  | .workerClosed i =>
      match s.w i, s.jobsQ with
      | .selecting, [] => if s.jobsClosed then some (setW s i .stopped) else none
      | _, _ => none
  | .workerStop i =>
      match s.w i with
      | .selecting => if s.cancelled then some (setW s i .stopped) else none
      | _ => none
  | .workerCheck i =>
      match s.w i with
      | .claimed j =>
          if s.cancelled then
            some (setW s i (.pushing (mkContextCancelled (widNum i) j) true))
          else
            some (setW s i (.working j))
      | _ => none
  | .workerWork i =>
      match s.w i with
      | .working j => some (setW s i (.pushing (mkContextNormal (widNum i) j) false))
      | _ => none
  | .workerPush i =>
      match s.w i with
      | .pushing r exit =>
          if s.resultsQ.length < resultsCap then
            some (setW { s with resultsQ := s.resultsQ ++ [r],
                                produced := s.produced + 1 }
                    i (if exit then .stopped else .selecting))
          else none
      | _ => none
  | .collectorRecv =>
      match s.collector, s.resultsQ with
      | .waiting, _ :: rest => some { s with resultsQ := rest, collected := s.collected + 1 }
      | _, _ => none
  | .collectorStop =>
      match s.collector with
      | .waiting => if s.cancelled then some { s with collector := .stopped } else none
      | .stopped => none
  | .mainObserve =>
      match s.main with
      | .waitCtx => if s.cancelled then some { s with main := .waitWg } else none
      | _ => none
  | .mainWait =>
      match s.main with
      | .waitWg =>
          if s.workerA = .stopped ∧ s.workerB = .stopped then
            some { s with main := .returned }
          else none
      | _ => none

/-- The state of `workerPoolWithContext` right after it has spawned the
workers, the sender and the collector. -/
def initState : PoolState :=
  { cancelled := false, jobsQ := [], jobsClosed := false, resultsQ := [],
    dispatched := 0, produced := 0, collected := 0,
    workerA := .selecting, workerB := .selecting,
    sender := .sending 1, collector := .waiting, main := .waitCtx }

/-- Run a list of scheduler choices from a state; `none` if any chosen
branch is not enabled. -/
def run (s : PoolState) : List Choice → Option PoolState
  | [] => some s
  | c :: cs =>
      match step s c with
      | some s' => run s' cs
      | none => none

/-- A state the pool can actually be in: reachable from the start state by
some interleaving. -/
def Reachable (s : PoolState) : Prop :=
  ∃ cs, run initState cs = some s

/-- All scheduler choices that belong to worker `i`. -/
def wChoices (i : Bool) : List Choice :=
  [.workerClaim i, .workerClosed i, .workerStop i,
   .workerCheck i, .workerWork i, .workerPush i]

/-- Worker `i` is blocked: it has not terminated, yet none of its possible
steps is enabled. -/
def BlockedWorker (s : PoolState) (i : Bool) : Prop :=
  s.w i ≠ .stopped ∧ ∀ c ∈ wChoices i, step s c = none

/-- Worker `i` is blocked now and stays blocked in every future of the
state, whatever the scheduler does. -/
def BlockedForever (s : PoolState) (i : Bool) : Prop :=
  ∀ cs s', run s cs = some s' → BlockedWorker s' i

/-- One fill-one-job round of the schedule below: the sender sends, worker 1
claims the job, passes the context check, works, and pushes the result. -/
def fillRound : List Choice :=
  [.senderSend, .workerClaim false, .workerCheck false, .workerWork false, .workerPush false]

/-- A schedule that fills the results buffer to its capacity of 20 while the
collector is never scheduled, has worker 1 take a 21st job up to its result
send, and only then lets the timeout fire and the collector observe it and
leave: worker 1 is now parked on a bare `results <-` send that no select
guards. -/
def c1Trace : List Choice :=
  (List.replicate 20 fillRound).flatten ++
    [.senderSend, .workerClaim false, .workerCheck false, .workerWork false,
     .cancel, .collectorStop]

/-- The state this schedule reaches. -/
def sC1 : PoolState := (run initState c1Trace).getD initState

/-- The number of jobs a worker currently holds (claimed but whose result
has not yet been pushed). -/
def pendingW : WState → Nat
  | .claimed _ => 1
  | .working _ => 1
  | .pushing _ _ => 1
  | _ => 0

/-- Conservation invariant of the context pool: jobs ever sent = jobs still
queued + jobs held by the two workers + results ever pushed. -/
def Conserved (s : PoolState) : Prop :=
  s.dispatched = s.jobsQ.length + pendingW s.workerA + pendingW s.workerB + s.produced

/-- A cancelled-shutdown schedule: one job is dispatched, then the timeout
fires and every goroutine takes its cancellation exit without the job ever
being claimed. -/
def c3Trace : List Choice :=
  [.senderSend, .cancel, .workerStop false, .workerStop true,
   .senderStop, .collectorStop, .mainObserve, .mainWait]

/-- The state this schedule reaches. -/
def sC3 : PoolState := (run initState c3Trace).getD initState

/-- A schedule on which `wg.Wait()` returns while the sender and the
collector goroutines have not terminated. -/
def c7Trace : List Choice :=
  [.cancel, .workerStop false, .workerStop true, .mainObserve, .mainWait]

/-- The state this schedule reaches. -/
def sC7 : PoolState := (run initState c7Trace).getD initState

/-- Local state of a `rateLimitedWorker`: select on the jobs channel, then
the blocking `<-rateLimiter` token receive, then the simulated work, then
the `results <-` send. -/
inductive RWState where
  | selecting
  | waitToken (j : Job)
  | working (j : Job)
  | pushing (j : Job)
  | stopped
deriving DecidableEq

/-- Local state of the refill goroutine of `rateLimitedWorkerPool`: `idle`
is the select on `ticker.C`; after a tick fires it performs two nonblocking
sends in sequence, so `oneSent` is the point between them.  The loop has no
exit: there is no terminal constructor because the source has no `return`. -/
inductive RefillState where
  | idle
  | oneSent
deriving DecidableEq

/-- Local state of the main routine of `rateLimitedWorkerPool`: it sends the
six jobs, closes the channel, then collects six results and returns. -/
inductive RMState where
  | sending (next : Nat)
  | collecting
  | returned
deriving DecidableEq

/-- Global state of `rateLimitedWorkerPool`: `tokens` is the number of
permits buffered in the `rateLimiter` channel (`make(chan struct{}, 2)`),
plus the jobs and results channels, the three workers, the refill goroutine
and the main routine. -/
structure RateState where
  tokens     : Nat
  refill     : RefillState
  jobsQ      : List Job
  jobsClosed : Bool
  resultsQ   : List Result
  collected  : Nat
  wA         : RWState
  wB         : RWState
  wC         : RWState
  main       : RMState
deriving DecidableEq

/-- Capacity of the `rateLimiter` channel: 2 permits. -/
def tokenCap : Nat := 2

/-- Capacity of the jobs and results channels of the rate-limited pool. -/
def rateQCap : Nat := 10

/-- Worker ids 1..3 for the three rate-limited workers. -/
inductive WId where
  | one
  | two
  | three
deriving DecidableEq

/-- Numeric worker id. -/
def WId.num : WId → Nat
  | .one => 1
  | .two => 2
  | .three => 3

/-- The local state of rate-limited worker `i`. -/
def RateState.w (s : RateState) (i : WId) : RWState :=
  match i with
  | .one => s.wA
  | .two => s.wB
  | .three => s.wC

/-- Replace the local state of rate-limited worker `i`. -/
def setRW (s : RateState) (i : WId) (v : RWState) : RateState :=
  match i with
  | .one => { s with wA := v }
  | .two => { s with wB := v }
  | .three => { s with wC := v }

/-- The job main builds on iteration `j`
(`Job{ID: j, Data: fmt.Sprintf("rate-limited-task-%d", j)}`). -/
def mkRateJob (j : Nat) : Job :=
  { id := j, data := "rate-limited-task-" ++ toString j }

/-- A nonblocking send on the `rateLimiter` channel
(`select { case rateLimiter <- struct{}{}: default: }`): adds a permit if
there is room, otherwise the attempt is discarded. -/
def refillOnce (tokens : Nat) : Nat :=
  if tokens < tokenCap then tokens + 1 else tokens

/-- A scheduler choice in the rate-limited pool. -/
inductive RChoice where
  | tick
  | refillSecond
  | claim (i : WId)
  | closedExit (i : WId)
  | acquire (i : WId)
  | work (i : WId)
  | push (i : WId)
  | mainSend
  | mainClose
  | mainRecv
  | mainReturn
deriving DecidableEq

/-- One interleaved small step of `rateLimitedWorkerPool`.

  * `tick`: the ticker fires — this happens only when a full refill interval
    has elapsed (`time.NewTicker` first fires one interval after creation) —
    and the refill goroutine performs the first of its two nonblocking
    permit sends.
  * `refillSecond`: the second nonblocking send, after which the goroutine
    is back at its select, with no way to ever terminate.
  * `claim` / `closedExit`: a worker's `for job := range jobs` either
    receives a job or sees the channel closed and empty and the loop ends.
  * `acquire`: the worker's blocking `<-rateLimiter`: needs a permit and
    consumes it; there is no cancellation alternative.
  * `work`: the `time.Sleep(100ms)` body completes.
  * `push`: the `results <- Result{...}` send.
  * `mainSend` / `mainClose`: the main loop `for j := 1; j <= 6; j++ { jobs <- ... }`
    then `close(jobs)`.
  * `mainRecv` / `mainReturn`: the main collection loop `for r := 1; r <= 6`
    receives a result; after the sixth it returns. -/
def rstep (s : RateState) : RChoice → Option RateState
  | .tick =>
      match s.refill with
      | .idle => some { s with tokens := refillOnce s.tokens, refill := .oneSent }
      | .oneSent => none
  | .refillSecond =>
      match s.refill with
      | .oneSent => some { s with tokens := refillOnce s.tokens, refill := .idle }
      | .idle => none
  | .claim i =>
      match s.w i, s.jobsQ with
      | .selecting, j :: rest => some (setRW { s with jobsQ := rest } i (.waitToken j))
      | _, _ => none
  | .closedExit i =>
      match s.w i, s.jobsQ with
      | .selecting, [] => if s.jobsClosed then some (setRW s i .stopped) else none
      | _, _ => none
  | .acquire i =>
      match s.w i with
      | .waitToken j =>
          match s.tokens with
          | t + 1 => some (setRW { s with tokens := t } i (.working j))
          | 0 => none
      | _ => none
  | .work i =>
      match s.w i with
      | .working j => some (setRW s i (.pushing j))
      | _ => none
  | .push i =>
      match s.w i with
      | .pushing j =>
          if s.resultsQ.length < rateQCap then
            some (setRW { s with resultsQ := s.resultsQ ++ [mkRateLimited i.num j] } i .selecting)
          else none
      | _ => none
  | .mainSend =>
      match s.main with
      | .sending j =>
          if j ≤ 6 ∧ s.jobsQ.length < rateQCap then
            some { s with jobsQ := s.jobsQ ++ [mkRateJob j], main := .sending (j + 1) }
          else none
      | _ => none
  | .mainClose =>
      match s.main with
      | .sending j =>
          if j = 7 then some { s with jobsClosed := true, main := .collecting }
          else none
      | _ => none
  | .mainRecv =>
      match s.main, s.resultsQ with
      | .collecting, _ :: rest =>
          if s.collected < 6 then some { s with resultsQ := rest, collected := s.collected + 1 }
          else none
      | _, _ => none
  | .mainReturn =>
      match s.main with
      | .collecting => if s.collected = 6 then some { s with main := .returned } else none
      | _ => none

/-- The state of `rateLimitedWorkerPool` right after it has spawned the
refill goroutine and the three workers: the permit pool is the freshly made
empty channel. -/
def rateInit : RateState :=
  { tokens := 0, refill := .idle, jobsQ := [], jobsClosed := false,
    resultsQ := [], collected := 0,
    wA := .selecting, wB := .selecting, wC := .selecting, main := .sending 1 }

/-- Run a list of scheduler choices in the rate-limited pool. -/
def rrun (s : RateState) : List RChoice → Option RateState
  | [] => some s
  | c :: cs =>
      match rstep s c with
      | some s' => rrun s' cs
      | none => none

/-- A state the rate-limited pool can actually be in. -/
def RReachable (s : RateState) : Prop :=
  ∃ cs, rrun rateInit cs = some s

/-- A schedule contains no ticker firing: no refill interval has elapsed
yet. -/
def NoTick (cs : List RChoice) : Prop :=
  RChoice.tick ∉ cs

/-- Worker `i` has begun processing a job: it is past the token acquisition
(working or sending its result). -/
def BegunProcessing (s : RateState) (i : WId) : Prop :=
  (∃ j, s.w i = .working j) ∨ ∃ j, s.w i = .pushing j

theorem append_left_ne_empty (s t : String) (hs : s.data ≠ []) : s ++ t ≠ "" := by
  intro h
  apply hs
  have hd : (s ++ t).data = ("" : String).data := congrArg String.data h
  rw [String.data_append] at hd
  exact (List.append_eq_nil.mp hd).1

theorem counts_split (rs : List Result) :
    countSuccesses rs + countFailures rs = rs.length := by
  induction rs with
  | nil => rfl
  | cons r rs ih =>
    unfold countSuccesses countFailures at *
    rw [List.countP_cons, List.countP_cons, List.length_cons]
    cases h : r.error <;> simp [h] <;> omega

theorem errorProneWorkerStep_not_cancelled (id : Nat) (fail : Bool) (j : Job) :
    isCancelledResult (errorProneWorkerStep id fail j) = false := by
  cases fail <;> rfl

theorem countCancelled_append (xs ys : List Result) :
    countCancelled (xs ++ ys) = countCancelled xs + countCancelled ys := by
  simp [countCancelled, List.countP_append]

theorem errorProneWorker_no_cancelled (id : Nat) (oracle : Job → Bool) (js : List Job) :
    countCancelled (errorProneWorker id oracle js) = 0 := by
  induction js with
  | nil => rfl
  | cons j js ih =>
    unfold countCancelled errorProneWorker at *
    rw [List.map_cons, List.countP_cons, errorProneWorkerStep_not_cancelled]
    simpa using ih

theorem poolRunResults_cons (oracle : Job → Bool) (p : Nat × List Job)
    (shares : List (Nat × List Job)) :
    poolRunResults oracle (p :: shares) =
      errorProneWorker p.1 oracle p.2 ++ poolRunResults oracle shares := by
  simp [poolRunResults]

theorem poolRunResults_no_cancelled (oracle : Job → Bool) (shares : List (Nat × List Job)) :
    countCancelled (poolRunResults oracle shares) = 0 := by
  induction shares with
  | nil => rfl
  | cons p shares ih =>
    rw [poolRunResults_cons, countCancelled_append, errorProneWorker_no_cancelled, ih]

theorem poolRunResults_length (oracle : Job → Bool) (shares : List (Nat × List Job)) :
    (poolRunResults oracle shares).length = ((shares.map Prod.snd).flatten).length := by
  induction shares with
  | nil => rfl
  | cons p shares ih =>
    rw [poolRunResults_cons, List.map_cons, List.flatten_cons, List.length_append,
      List.length_append, ih]
    simp [errorProneWorker]

theorem dispatchFinite_length (n : Nat) (mkData : Nat → String) :
    (dispatchFinite n mkData).length = n := by
  simp [dispatchFinite]

theorem run_append (s : PoolState) (cs ds : List Choice) :
    run s (cs ++ ds) = (run s cs).bind (fun t => run t ds) := by
  induction cs generalizing s with
  | nil => rfl
  | cons c cs ih =>
    simp only [List.cons_append, run]
    cases step s c <;> simp [ih]

theorem reachable_run {s t : PoolState} {cs : List Choice} (hs : Reachable s)
    (h : run s cs = some t) : Reachable t := by
  obtain ⟨bs, hb⟩ := hs
  exact ⟨bs ++ cs, by rw [run_append, hb]; exact h⟩

theorem conserved_init : Conserved initState := by
  simp [Conserved, initState, pendingW]

theorem conserved_step {s s' : PoolState} {c : Choice} (hs : step s c = some s')
    (h : Conserved s) : Conserved s' := by
  unfold Conserved at *
  cases c with
  | cancel =>
    simp only [step] at hs
    split at hs
    · cases hs
    · injection hs with hs; subst hs; simpa using h
  | senderSend =>
    simp only [step] at hs
    split at hs
    · split at hs
      · injection hs with hs; subst hs
        simp only [List.length_append, List.length_cons, List.length_nil]
        omega
      · cases hs
    · cases hs
  | senderStop =>
    simp only [step] at hs
    split at hs
    · split at hs
      · injection hs with hs; subst hs; simpa using h
      · cases hs
    · cases hs
  | workerClaim i =>
    simp only [step] at hs
    split at hs
    case _ j rest heqw heqq =>
      injection hs with hs; subst hs
      cases i <;>
        simp only [setW, PoolState.w, if_true, if_false, Bool.false_eq_true, ite_false,
          ite_true] at heqw ⊢ <;>
        rw [heqw] at h <;>
        simp only [pendingW] at h ⊢ <;>
        rw [heqq] at h <;>
        simp only [List.length_cons] at h <;>
        omega
    case _ => cases hs
  | workerClosed i =>
    simp only [step] at hs
    split at hs
    case _ heqw heqq =>
      split at hs
      · injection hs with hs; subst hs
        cases i <;>
          simp only [setW, PoolState.w, Bool.false_eq_true, ite_false, ite_true] at heqw ⊢ <;>
          rw [heqw] at h <;>
          simp only [pendingW] at h ⊢ <;>
          omega
      · cases hs
    case _ => cases hs
  | workerStop i =>
    simp only [step] at hs
    split at hs
    case _ heqw =>
      split at hs
      · injection hs with hs; subst hs
        cases i <;>
          simp only [setW, PoolState.w, Bool.false_eq_true, ite_false, ite_true] at heqw ⊢ <;>
          rw [heqw] at h <;>
          simp only [pendingW] at h ⊢ <;>
          omega
      · cases hs
    case _ => cases hs
  | workerCheck i =>
    simp only [step] at hs
    split at hs
    case _ j heqw =>
      split at hs <;>
      · injection hs with hs; subst hs
        cases i <;>
          simp only [setW, PoolState.w, Bool.false_eq_true, ite_false, ite_true] at heqw ⊢ <;>
          rw [heqw] at h <;>
          simp only [pendingW] at h ⊢ <;>
          omega
    case _ => cases hs
  | workerWork i =>
    simp only [step] at hs
    split at hs
    case _ j heqw =>
      injection hs with hs; subst hs
      cases i <;>
        simp only [setW, PoolState.w, Bool.false_eq_true, ite_false, ite_true] at heqw ⊢ <;>
        rw [heqw] at h <;>
        simp only [pendingW] at h ⊢ <;>
        omega
    case _ => cases hs
  | workerPush i =>
    simp only [step] at hs
    split at hs
    case _ r exit heqw =>
      split at hs
      · injection hs with hs; subst hs
        cases i <;> cases exit <;>
          simp only [setW, PoolState.w, Bool.false_eq_true, ite_false, ite_true] at heqw ⊢ <;>
          rw [heqw] at h <;>
          simp only [pendingW] at h ⊢ <;>
          omega
      · cases hs
    case _ => cases hs
  | collectorRecv =>
    simp only [step] at hs
    split at hs
    case _ r rest heqc heqq =>
      injection hs with hs; subst hs
      simpa using h
    case _ => cases hs
  | collectorStop =>
    simp only [step] at hs
    split at hs
    · split at hs
      · injection hs with hs; subst hs; simpa using h
      · cases hs
    · cases hs
  | mainObserve =>
    simp only [step] at hs
    split at hs
    · split at hs
      · injection hs with hs; subst hs; simpa using h
      · cases hs
    · cases hs
  | mainWait =>
    simp only [step] at hs
    split at hs
    · split at hs
      · injection hs with hs; subst hs; simpa using h
      · cases hs
    · cases hs

theorem conserved_run {s t : PoolState} {cs : List Choice} (h : Conserved s)
    (hr : run s cs = some t) : Conserved t := by
  induction cs generalizing s with
  | nil => cases hr; assumption
  | cons c cs ih =>
    simp only [run] at hr
    cases hstep : step s c with
    | none => rw [hstep] at hr; cases hr
    | some s' =>
      rw [hstep] at hr
      exact ih (conserved_step hstep h) hr

theorem conserved_reachable {s : PoolState} (h : Reachable s) : Conserved s := by
  obtain ⟨cs, hcs⟩ := h
  exact conserved_run conserved_init hcs

/-- Claim C3 (counterexample): a complete cancelled-shutdown run of
`workerPoolWithContext` in which one job was dispatched into the jobs
channel, every goroutine then took its cancellation exit, and zero results
were ever produced: the dispatched job is silently dropped, so the number of
results ever produced does not equal the number of jobs ever dispatched on
the cancelled-shutdown path. -/
theorem c3_counterexample :
    ∃ s, run initState c3Trace = some s ∧
      s.sender = .stopped ∧ s.workerA = .stopped ∧ s.workerB = .stopped ∧
      s.collector = .stopped ∧ s.main = .returned ∧
      s.dispatched = 1 ∧ s.produced = 0 :=
  ⟨sC3, rfl, rfl, rfl, rfl, rfl, rfl, rfl, rfl⟩

/-- Claim C3 (amended): in every reachable state of the context pool,
jobs ever dispatched = jobs still queued + jobs currently held by a worker
+ results ever produced; hence no job yields two results and results never
exceed dispatches, but under cancelled shutdown the queued and held jobs
are dropped without a result, so `produced` can be strictly below
`dispatched`. -/
theorem c3_amended (s : PoolState) (h : Reachable s) :
    s.dispatched = s.jobsQ.length + pendingW s.workerA + pendingW s.workerB + s.produced ∧
    s.produced ≤ s.dispatched := by
  have hc := conserved_reachable h
  unfold Conserved at hc
  omega

/-- Claim C3 (witness): the amended conservation law evaluated at the
concrete final state of the cancelled-shutdown schedule. -/
theorem c3_amended_witness :
    sC3.dispatched = sC3.jobsQ.length + pendingW sC3.workerA + pendingW sC3.workerB +
      sC3.produced ∧ sC3.produced ≤ sC3.dispatched :=
  c3_amended sC3 ⟨c3Trace, rfl⟩

/-- Claim C7 (counterexample): a run of `workerPoolWithContext` in which
`wg.Wait()` has returned (main is past its wait) while the result-collector
goroutine is still at its select and the job-sender goroutine is still in
its send loop: spawned units other than the two workers survive the return of `wait()`. -/
theorem c7_counterexample :
    ∃ s, run initState c7Trace = some s ∧
      s.main = .returned ∧ s.collector = .waiting ∧ s.sender = .sending 1 :=
  ⟨sC7, rfl, rfl, rfl, rfl⟩

theorem wait_inv_step {s s' : PoolState} {c : Choice} (hs : step s c = some s')
    (h : s.main = .returned → s.workerA = .stopped ∧ s.workerB = .stopped) :
    s'.main = .returned → s'.workerA = .stopped ∧ s'.workerB = .stopped := by
  cases c with
  | cancel =>
    simp only [step] at hs
    split at hs
    · cases hs
    · injection hs with hs; subst hs; simpa using h
  | senderSend =>
    simp only [step] at hs
    split at hs
    · split at hs
      · injection hs with hs; subst hs; simpa using h
      · cases hs
    · cases hs
  | senderStop =>
    simp only [step] at hs
    split at hs
    · split at hs
      · injection hs with hs; subst hs; simpa using h
      · cases hs
    · cases hs
  | workerClaim i =>
    simp only [step] at hs
    split at hs
    case _ j rest heqw heqq =>
      injection hs with hs; subst hs
      intro hm
      cases i <;>
        simp only [setW, PoolState.w, Bool.false_eq_true, ite_false, ite_true] at heqw hm <;>
        [ (have hst := (h hm).1); (have hst := (h hm).2) ] <;>
        rw [heqw] at hst <;> cases hst
    case _ => cases hs
  | workerClosed i =>
    simp only [step] at hs
    split at hs
    case _ heqw heqq =>
      split at hs
      · injection hs with hs; subst hs
        intro hm
        cases i <;>
          simp only [setW, PoolState.w, Bool.false_eq_true, ite_false, ite_true] at heqw hm ⊢ <;>
          exact ⟨by simp [(h hm).1, heqw] , by simp [(h hm).2, heqw]⟩
      · cases hs
    case _ => cases hs
  | workerStop i =>
    simp only [step] at hs
    split at hs
    case _ heqw =>
      split at hs
      · injection hs with hs; subst hs
        intro hm
        cases i <;>
          simp only [setW, PoolState.w, Bool.false_eq_true, ite_false, ite_true] at heqw hm ⊢ <;>
          exact ⟨by simp [(h hm).1, heqw], by simp [(h hm).2, heqw]⟩
      · cases hs
    case _ => cases hs
  | workerCheck i =>
    simp only [step] at hs
    split at hs
    case _ j heqw =>
      split at hs <;>
      · injection hs with hs; subst hs
        intro hm
        cases i <;>
          simp only [setW, PoolState.w, Bool.false_eq_true, ite_false, ite_true] at heqw hm <;>
          [ (have hst := (h hm).1); (have hst := (h hm).2) ] <;>
          rw [heqw] at hst <;> cases hst
    case _ => cases hs
  | workerWork i =>
    simp only [step] at hs
    split at hs
    case _ j heqw =>
      injection hs with hs; subst hs
      intro hm
      cases i <;>
        simp only [setW, PoolState.w, Bool.false_eq_true, ite_false, ite_true] at heqw hm <;>
        [ (have hst := (h hm).1); (have hst := (h hm).2) ] <;>
        rw [heqw] at hst <;> cases hst
    case _ => cases hs
  | workerPush i =>
    simp only [step] at hs
    split at hs
    case _ r exit heqw =>
      split at hs
      · injection hs with hs; subst hs
        intro hm
        cases i <;>
          simp only [setW, PoolState.w, Bool.false_eq_true, ite_false, ite_true] at heqw hm <;>
          [ (have hst := (h hm).1); (have hst := (h hm).2) ] <;>
          rw [heqw] at hst <;> cases hst
      · cases hs
    case _ => cases hs
  | collectorRecv =>
    simp only [step] at hs
    split at hs
    case _ r rest heqc heqq =>
      injection hs with hs; subst hs; simpa using h
    case _ => cases hs
  | collectorStop =>
    simp only [step] at hs
    split at hs
    · split at hs
      · injection hs with hs; subst hs; simpa using h
      · cases hs
    · cases hs
  | mainObserve =>
    simp only [step] at hs
    split at hs
    · split at hs
      · injection hs with hs; subst hs; intro hm; cases hm
      · cases hs
    · cases hs
  | mainWait =>
    simp only [step] at hs
    split at hs
    · split at hs
      case _ hws =>
        injection hs with hs; subst hs
        intro _
        exact hws
      · cases hs
    · cases hs

theorem wait_inv_run {s t : PoolState} {cs : List Choice}
    (h : s.main = .returned → s.workerA = .stopped ∧ s.workerB = .stopped)
    (hr : run s cs = some t) :
    t.main = .returned → t.workerA = .stopped ∧ t.workerB = .stopped := by
  induction cs generalizing s with
  | nil => cases hr; assumption
  | cons c cs ih =>
    simp only [run] at hr
    cases hstep : step s c with
    | none => rw [hstep] at hr; cases hr
    | some s' =>
      rw [hstep] at hr
      exact ih (wait_inv_step hstep h) hr

/-- Claim C7 (amended): whenever main is past `wg.Wait()` in a reachable
state, both spawned Workers (the goroutines registered in the WaitGroup)
have terminated; the sender, the collector and — in the rate-limited
variant — the refill loop are not registered in the WaitGroup and may
still be running at that point. -/
theorem c7_amended (s : PoolState) (h : Reachable s) (hm : s.main = .returned) :
    s.workerA = .stopped ∧ s.workerB = .stopped := by
  obtain ⟨cs, hcs⟩ := h
  exact wait_inv_run (by intro hm0; cases hm0) hcs hm

/-- Claim C7 (witness): the amended guarantee evaluated at the concrete
final state of the `c7Trace` schedule, where main has returned. -/
theorem c7_amended_witness :
    sC7.workerA = .stopped ∧ sC7.workerB = .stopped :=
  c7_amended sC7 ⟨c7Trace, rfl⟩ rfl

theorem c1_inv_step {s s' : PoolState} {c : Choice} (hs : step s c = some s')
    (h : s.collector = .stopped ∧ resultsCap ≤ s.resultsQ.length ∧
      ∃ r, s.workerA = .pushing r false) :
    s'.collector = .stopped ∧ resultsCap ≤ s'.resultsQ.length ∧
      ∃ r, s'.workerA = .pushing r false := by
  obtain ⟨hcol, hlen, r0, hwa⟩ := h
  cases c with
  | cancel =>
    simp only [step] at hs
    split at hs
    · cases hs
    · injection hs with hs; subst hs; exact ⟨hcol, hlen, r0, hwa⟩
  | senderSend =>
    simp only [step] at hs
    split at hs
    · split at hs
      · injection hs with hs; subst hs; exact ⟨hcol, hlen, r0, hwa⟩
      · cases hs
    · cases hs
  | senderStop =>
    simp only [step] at hs
    split at hs
    · split at hs
      · injection hs with hs; subst hs; exact ⟨hcol, hlen, r0, hwa⟩
      · cases hs
    · cases hs
  | workerClaim i =>
    simp only [step] at hs
    split at hs
    case _ j rest heqw heqq =>
      injection hs with hs; subst hs
      cases i
      · simp only [PoolState.w, Bool.false_eq_true, ite_false] at heqw
        rw [hwa] at heqw; cases heqw
      · simp only [setW, ite_true]
        exact ⟨hcol, hlen, r0, hwa⟩
    case _ => cases hs
  | workerClosed i =>
    simp only [step] at hs
    split at hs
    case _ heqw heqq =>
      split at hs
      · injection hs with hs; subst hs
        cases i
        · simp only [PoolState.w, Bool.false_eq_true, ite_false] at heqw
          rw [hwa] at heqw; cases heqw
        · simp only [setW, ite_true]
          exact ⟨hcol, hlen, r0, hwa⟩
      · cases hs
    case _ => cases hs
  | workerStop i =>
    simp only [step] at hs
    split at hs
    case _ heqw =>
      split at hs
      · injection hs with hs; subst hs
        cases i
        · simp only [PoolState.w, Bool.false_eq_true, ite_false] at heqw
          rw [hwa] at heqw; cases heqw
        · simp only [setW, ite_true]
          exact ⟨hcol, hlen, r0, hwa⟩
      · cases hs
    case _ => cases hs
  | workerCheck i =>
    simp only [step] at hs
    split at hs
    case _ j heqw =>
      split at hs <;>
      · injection hs with hs; subst hs
        cases i
        · simp only [PoolState.w, Bool.false_eq_true, ite_false] at heqw
          rw [hwa] at heqw; cases heqw
        · simp only [setW, ite_true]
          exact ⟨hcol, hlen, r0, hwa⟩
    case _ => cases hs
  | workerWork i =>
    simp only [step] at hs
    split at hs
    case _ j heqw =>
      injection hs with hs; subst hs
      cases i
      · simp only [PoolState.w, Bool.false_eq_true, ite_false] at heqw
        rw [hwa] at heqw; cases heqw
      · simp only [setW, ite_true]
        exact ⟨hcol, hlen, r0, hwa⟩
    case _ => cases hs
  | workerPush i =>
    simp only [step] at hs
    split at hs
    case _ r exit heqw =>
      split at hs
      case _ hroom => exact absurd hroom (by omega)
      case _ => cases hs
    case _ => cases hs
  | collectorRecv =>
    simp only [step] at hs
    split at hs
    case _ r rest heqc heqq =>
      rw [hcol] at heqc; cases heqc
    case _ => cases hs
  | collectorStop =>
    simp only [step] at hs
    split at hs
    case _ heqc =>
      rw [hcol] at heqc; cases heqc
    case _ => cases hs
  | mainObserve =>
    simp only [step] at hs
    split at hs
    · split at hs
      · injection hs with hs; subst hs; exact ⟨hcol, hlen, r0, hwa⟩
      · cases hs
    · cases hs
  | mainWait =>
    simp only [step] at hs
    split at hs
    · split at hs
      · injection hs with hs; subst hs; exact ⟨hcol, hlen, r0, hwa⟩
      · cases hs
    · cases hs

theorem c1_inv_run {s t : PoolState} {cs : List Choice}
    (h : s.collector = .stopped ∧ resultsCap ≤ s.resultsQ.length ∧
      ∃ r, s.workerA = .pushing r false)
    (hr : run s cs = some t) :
    t.collector = .stopped ∧ resultsCap ≤ t.resultsQ.length ∧
      ∃ r, t.workerA = .pushing r false := by
  induction cs generalizing s with
  | nil => cases hr; assumption
  | cons c cs ih =>
    simp only [run] at hr
    cases hstep : step s c with
    | none => rw [hstep] at hr; cases hr
    | some s' =>
      rw [hstep] at hr
      exact ih (c1_inv_step hstep h) hr

theorem c1_inv_blocked {s : PoolState}
    (h : s.collector = .stopped ∧ resultsCap ≤ s.resultsQ.length ∧
      ∃ r, s.workerA = .pushing r false) :
    BlockedWorker s false := by
  obtain ⟨hcol, hlen, r0, hwa⟩ := h
  constructor
  · show s.w false ≠ .stopped
    simp only [PoolState.w, Bool.false_eq_true, ite_false]
    rw [hwa]
    intro hcontra; cases hcontra
  · intro c hc
    have hwf : s.w false = .pushing r0 false := by
      simp only [PoolState.w, Bool.false_eq_true, ite_false]; exact hwa
    simp only [wChoices, List.mem_cons, List.mem_singleton] at hc
    rcases hc with rfl | rfl | rfl | rfl | rfl | rfl | hfalse
    · cases hq : s.jobsQ <;> simp [step, hwf, hq]
    · cases hq : s.jobsQ <;> simp [step, hwf, hq]
    · simp [step, hwf]
    · simp [step, hwf]
    · simp [step, hwf]
    · simp [step, hwf, Nat.not_lt.mpr hlen]
    · cases hfalse

/-- Claim C1 (counterexample): the result-push suspension point of a Worker
is a bare channel send with no cancellation alternative, and it can stay
blocked forever after cancellation.  The schedule `c1Trace` fills the
results channel to its capacity while the collector is starved, parks
worker 1 on `results <-`, then raises cancellation and lets the collector
exit; from that reachable state worker 1 is blocked and remains blocked in
every possible future, refuting "no reachable state in which a component is
blocked on a queue operation and remains blocked after cancellation is
raised". -/
theorem c1_counterexample :
    ∃ s, Reachable s ∧ s.cancelled = true ∧ BlockedForever s false := by
  refine ⟨sC1, ⟨c1Trace, rfl⟩, rfl, ?_⟩
  intro cs s' hr
  have hinv : sC1.collector = .stopped ∧ resultsCap ≤ sC1.resultsQ.length ∧
      ∃ r, sC1.workerA = .pushing r false :=
    ⟨rfl, by decide, mkContextNormal 1 (mkJob 21), rfl⟩
  exact c1_inv_blocked (c1_inv_run hinv hr)

/-- Claim C1 (amended): the suspension points that the source implements as
selects racing `ctx.Done()` are interruptible whenever cancellation has been
raised — a Worker waiting for a job, the Dispatcher pushing into a full job
queue, and the Collector waiting for the next result can each immediately
take the cancellation branch; the Worker's result push (and the rate-limited
token wait) has no such branch and is not interruptible. -/
theorem c1_amended (s : PoolState) (n : Nat) (i : Bool) (hc : s.cancelled = true) :
    (s.w i = .selecting → step s (.workerStop i) = some (setW s i .stopped)) ∧
    (s.sender = .sending n →
      step s .senderStop = some { s with sender := .stopped, jobsClosed := true }) ∧
    (s.collector = .waiting → step s .collectorStop = some { s with collector := .stopped }) := by
  refine ⟨fun hw => ?_, fun hsend => ?_, fun hcol => ?_⟩
  · simp [step, hw, hc]
  · simp [step, hsend, hc]
  · simp [step, hcol, hc]

/-- Claim C1 (witness): the three cancellation branches fire at the concrete
start state with the flag raised. -/
theorem c1_amended_witness :
    step { initState with cancelled := true } (.workerStop false) =
      some (setW { initState with cancelled := true } false .stopped) ∧
    step { initState with cancelled := true } .senderStop =
      some { { initState with cancelled := true } with sender := .stopped, jobsClosed := true } ∧
    step { initState with cancelled := true } .collectorStop =
      some { { initState with cancelled := true } with collector := .stopped } := by
  have h := c1_amended { initState with cancelled := true } 1 false rfl
  exact ⟨h.1 rfl, h.2.1 rfl, h.2.2 rfl⟩

theorem setW_w_self (s : PoolState) (i : Bool) (v : WState) : (setW s i v).w i = v := by
  cases i <;> simp [setW, PoolState.w]

theorem setW_jobsQ (s : PoolState) (i : Bool) (v : WState) : (setW s i v).jobsQ = s.jobsQ := by
  cases i <;> simp [setW]

theorem setW_resultsQ (s : PoolState) (i : Bool) (v : WState) :
    (setW s i v).resultsQ = s.resultsQ := by
  cases i <;> simp [setW]

theorem setW_produced (s : PoolState) (i : Bool) (v : WState) :
    (setW s i v).produced = s.produced := by
  cases i <;> simp [setW]

theorem setW_dispatched (s : PoolState) (i : Bool) (v : WState) :
    (setW s i v).dispatched = s.dispatched := by
  cases i <;> simp [setW]

theorem w_set_cancelled (s : PoolState) (b : Bool) (i : Bool) :
    ({ s with cancelled := b } : PoolState).w i = s.w i := by
  cases i <;> simp [PoolState.w]

/-- Claim C4: a Worker that has already claimed a job and observes
cancellation at the `ctx.Err()` check moves to sending exactly the
`Result{Error: "context cancelled"}` for that claimed job and will return
right after the send: a completed push appends that one result and stops
the worker, and a worker at that point can take no step other than the
push — the claimed job is never silently dropped. -/
theorem c4_claimed_cancelled (s : PoolState) (i : Bool) (j : Job)
    (h : s.w i = .claimed j) (hc : s.cancelled = true) :
    step s (.workerCheck i) = some (setW s i (.pushing (mkContextCancelled (widNum i) j) true)) ∧
    (mkContextCancelled (widNum i) j).job = j ∧
    isCancelledResult (mkContextCancelled (widNum i) j) = true ∧
    (∀ t : PoolState, ∀ r : Result, t.w i = .pushing r true →
      (∀ t', step t (.workerPush i) = some t' →
        t'.resultsQ = t.resultsQ ++ [r] ∧ t'.produced = t.produced + 1 ∧ t'.w i = .stopped) ∧
      (∀ c ∈ wChoices i, c ≠ .workerPush i → step t c = none)) := by
  refine ⟨by simp [step, h, hc], rfl, rfl, fun t r htw => ⟨fun t' ht' => ?_, fun c hmem hne => ?_⟩⟩
  · simp only [step, htw] at ht'
    split at ht'
    · injection ht' with ht'; subst ht'
      refine ⟨setW_resultsQ .., setW_produced .., ?_⟩
      simpa using setW_w_self _ i _
    · cases ht'
  · simp only [wChoices, List.mem_cons, List.not_mem_nil, or_false] at hmem
    rcases hmem with rfl | rfl | rfl | rfl | rfl | rfl
    · cases hq : t.jobsQ <;> simp [step, htw, hq]
    · cases hq : t.jobsQ <;> simp [step, htw, hq]
    · simp [step, htw]
    · simp [step, htw]
    · simp [step, htw]
    · exact absurd rfl hne

/-- Claim C5: (b) a Worker at its select that sees the jobs channel closed
and empty terminates normally without touching either queue; (c) if
cancellation is raised and no job is available, every step the worker can
take terminates it immediately, consuming no job and emitting no result,
and the cancellation exit is indeed enabled. -/
theorem c5_idle_termination (s : PoolState) (i : Bool) :
    (s.w i = .selecting → s.jobsQ = [] → s.jobsClosed = true →
      step s (.workerClosed i) = some (setW s i .stopped)) ∧
    (s.w i = .selecting → s.jobsQ = [] → s.cancelled = true →
      step s (.workerStop i) = some (setW s i .stopped) ∧
      (∀ c ∈ wChoices i, ∀ s', step s c = some s' →
        s'.w i = .stopped ∧ s'.jobsQ = s.jobsQ ∧ s'.resultsQ = s.resultsQ ∧
        s'.produced = s.produced ∧ s'.dispatched = s.dispatched)) := by
  refine ⟨fun hw hq hcl => by simp [step, hw, hq, hcl], fun hw hq hcan => ⟨by simp [step, hw, hcan], ?_⟩⟩
  intro c hmem s' hstep
  simp only [wChoices, List.mem_cons, List.not_mem_nil, or_false] at hmem
  rcases hmem with rfl | rfl | rfl | rfl | rfl | rfl
  · simp [step, hw, hq] at hstep
  · simp only [step, hw, hq] at hstep
    split at hstep
    · injection hstep with hstep; subst hstep
      exact ⟨setW_w_self .., setW_jobsQ .., setW_resultsQ .., setW_produced .., setW_dispatched ..⟩
    · cases hstep
  · simp only [step, hw, hcan, ite_true] at hstep
    injection hstep with hstep; subst hstep
    exact ⟨setW_w_self .., setW_jobsQ .., setW_resultsQ .., setW_produced .., setW_dispatched ..⟩
  · simp [step, hw] at hstep
  · simp [step, hw] at hstep
  · simp [step, hw] at hstep

/-- Claim C9: once a Worker is past the context check and executing a job,
cancellation cannot abort it: the work step is the worker's only enabled
step and its effect is identical whatever the cancellation flag, producing
the normal success result; from the subsequent result send, the push is the
only enabled step, is likewise insensitive to the flag, and a completed
push emits exactly the normal result and returns the worker to its select
loop — in-flight work always runs to completion and its result is emitted
through the normal path. -/
theorem c9_no_abort (s : PoolState) (i : Bool) (j : Job) (hw : s.w i = .working j) :
    (∀ b : Bool, step { s with cancelled := b } (.workerWork i) =
      some (setW { s with cancelled := b } i (.pushing (mkContextNormal (widNum i) j) false))) ∧
    (∀ c ∈ wChoices i, c ≠ .workerWork i → step s c = none) ∧
    (∀ t : PoolState, t.w i = .pushing (mkContextNormal (widNum i) j) false →
      (∀ b : Bool, step { t with cancelled := b } (.workerPush i) =
        (step t (.workerPush i)).map (fun u => { u with cancelled := b })) ∧
      (∀ c ∈ wChoices i, c ≠ .workerPush i → step t c = none) ∧
      (∀ t', step t (.workerPush i) = some t' →
        t'.resultsQ = t.resultsQ ++ [mkContextNormal (widNum i) j] ∧ t'.w i = .selecting)) := by
  refine ⟨?_, ?_, fun t htw => ⟨?_, ?_, fun t' ht' => ?_⟩⟩
  · intro b
    have hw' : ({ s with cancelled := b } : PoolState).w i = .working j := by
      rw [w_set_cancelled]; exact hw
    simp [step, hw']
  · intro c hmem hne
    simp only [wChoices, List.mem_cons, List.not_mem_nil, or_false] at hmem
    rcases hmem with rfl | rfl | rfl | rfl | rfl | rfl
    · cases hq : s.jobsQ <;> simp [step, hw, hq]
    · cases hq : s.jobsQ <;> simp [step, hw, hq]
    · simp [step, hw]
    · simp [step, hw]
    · exact absurd rfl hne
    · simp [step, hw]
  · intro b
    have htw' : ({ t with cancelled := b } : PoolState).w i = .pushing (mkContextNormal (widNum i) j) false := by
      rw [w_set_cancelled]; exact htw
    simp only [step, htw, htw']
    split <;> cases i <;> simp [setW]
  · intro c hmem hne
    simp only [wChoices, List.mem_cons, List.not_mem_nil, or_false] at hmem
    rcases hmem with rfl | rfl | rfl | rfl | rfl | rfl
    · cases hq : t.jobsQ <;> simp [step, htw, hq]
    · cases hq : t.jobsQ <;> simp [step, htw, hq]
    · simp [step, htw]
    · simp [step, htw]
    · simp [step, htw]
    · exact absurd rfl hne
  · simp only [step, htw] at ht'
    split at ht'
    · injection ht' with ht'; subst ht'
      refine ⟨setW_resultsQ .., ?_⟩
      simpa using setW_w_self _ i _
    · cases ht'

/-- Claim C4 (witness): the cancelled-claim transition evaluated at a
concrete state: worker 1 holds job 1 and the flag is raised. -/
theorem c4_witness :
    step { initState with cancelled := true, workerA := .claimed (mkJob 1) } (.workerCheck false) =
      some (setW { initState with cancelled := true, workerA := .claimed (mkJob 1) } false
        (.pushing (mkContextCancelled (widNum false) (mkJob 1)) true)) :=
  (c4_claimed_cancelled { initState with cancelled := true, workerA := .claimed (mkJob 1) }
    false (mkJob 1) rfl rfl).1

/-- Claim C5 (witness): both termination branches evaluated at a concrete
state with an empty, closed jobs channel and cancellation raised. -/
theorem c5_witness :
    step { initState with jobsClosed := true, cancelled := true } (.workerClosed false) =
      some (setW { initState with jobsClosed := true, cancelled := true } false .stopped) ∧
    step { initState with jobsClosed := true, cancelled := true } (.workerStop false) =
      some (setW { initState with jobsClosed := true, cancelled := true } false .stopped) :=
  ⟨(c5_idle_termination { initState with jobsClosed := true, cancelled := true } false).1
      rfl rfl rfl,
   ((c5_idle_termination { initState with jobsClosed := true, cancelled := true } false).2
      rfl rfl rfl).1⟩

/-- Claim C9 (witness): the work-completion step of a worker mid-job,
evaluated with the cancellation flag raised: the transition still produces
the normal result push. -/
theorem c9_witness :
    step { { initState with workerA := .working (mkJob 1) } with cancelled := true }
        (.workerWork false) =
      some (setW { { initState with workerA := .working (mkJob 1) } with cancelled := true }
        false (.pushing (mkContextNormal (widNum false) (mkJob 1)) false)) :=
  (c9_no_abort { initState with workerA := .working (mkJob 1) } false (mkJob 1) rfl).1 true

/-- Claim C2: for a finite batch of `n` jobs distributed in any way among
any set of workers, with any pattern of per-job random failures and no
cancellation, the dispatched count is `n`, exactly one result is collected
per job, the success and failure counts sum to `n`, and no result is a
cancellation: `dispatched == N`, `succeeded + failed == N`, `cancelled == 0`. -/
theorem c2_conservation (n : Nat) (mkData : Nat → String) (oracle : Job → Bool)
    (shares : List (Nat × List Job)) (results : List Result)
    (hshares : ((shares.map Prod.snd).flatten).Perm (dispatchFinite n mkData))
    (hres : results.Perm (poolRunResults oracle shares)) :
    (dispatchFinite n mkData).length = n ∧
    results.length = n ∧
    countSuccesses results + countFailures results = n ∧
    countCancelled results = 0 := by
  have hlen : results.length = n := by
    rw [hres.length_eq, poolRunResults_length, hshares.length_eq, dispatchFinite_length]
  refine ⟨dispatchFinite_length .., hlen, ?_, ?_⟩
  · rw [counts_split, hlen]
  · rw [show countCancelled results = countCancelled (poolRunResults oracle shares) from
      List.Perm.countP_eq isCancelledResult hres]
    exact poolRunResults_no_cancelled ..

/-- Claim C2 (witness): the conservation statement evaluated at a concrete
two-job batch split across two workers with job 1 failing. -/
theorem c2_witness :
    (dispatchFinite 2 (fun k => "data-" ++ toString k)).length = 2 ∧
    (poolRunResults (fun j => decide (j.id = 1))
      [(1, dispatchFinite 2 (fun k => "data-" ++ toString k))]).length = 2 ∧
    countSuccesses (poolRunResults (fun j => decide (j.id = 1))
        [(1, dispatchFinite 2 (fun k => "data-" ++ toString k))]) +
      countFailures (poolRunResults (fun j => decide (j.id = 1))
        [(1, dispatchFinite 2 (fun k => "data-" ++ toString k))]) = 2 ∧
    countCancelled (poolRunResults (fun j => decide (j.id = 1))
      [(1, dispatchFinite 2 (fun k => "data-" ++ toString k))]) = 0 :=
  c2_conservation 2 (fun k => "data-" ++ toString k) (fun j => decide (j.id = 1))
    [(1, dispatchFinite 2 (fun k => "data-" ++ toString k))] _ (by decide) (List.Perm.refl _)

theorem data_append_left_ne (s t : String) (hs : s.data ≠ []) : (s ++ t).data ≠ [] := by
  rw [String.data_append]
  intro h
  exact hs (List.append_eq_nil.mp h).1

/-- Claim C8: every result any worker in the source constructs carries
exactly one of an output or an error: the success results of the basic,
error-prone, context and rate-limited workers have a nonempty output and a
nil error, and the failure and cancellation results have an error and the
zero-value output. -/
theorem c8_exactly_one (idW : Nat) (j : Job) (fail : Bool) :
    hasExactlyOne (basicWorkerStep idW j) ∧
    hasExactlyOne (errorProneWorkerStep idW fail j) ∧
    hasExactlyOne (mkContextNormal idW j) ∧
    hasExactlyOne (mkContextCancelled idW j) ∧
    hasExactlyOne (mkRateLimited idW j) := by
  refine ⟨Or.inl ⟨rfl, ?_⟩, ?_, Or.inl ⟨rfl, ?_⟩, Or.inr ⟨by simp [mkContextCancelled], rfl⟩,
    Or.inl ⟨rfl, ?_⟩⟩
  · exact append_left_ne_empty _ _ (data_append_left_ne _ _ (data_append_left_ne _ _ (by decide)))
  · cases fail
    · exact Or.inl ⟨rfl, append_left_ne_empty _ _ (by decide)⟩
    · exact Or.inr ⟨by simp [errorProneWorkerStep], rfl⟩
  · exact append_left_ne_empty _ _ (by decide)
  · exact append_left_ne_empty _ _ (by decide)

theorem setRW_tokens (s : RateState) (i : WId) (v : RWState) : (setRW s i v).tokens = s.tokens := by
  cases i <;> simp [setRW]

theorem refillOnce_le (t : Nat) (h : t ≤ tokenCap) : refillOnce t ≤ tokenCap := by
  unfold refillOnce
  split <;> omega

theorem tokens_le_step {s s' : RateState} {c : RChoice} (hs : rstep s c = some s')
    (h : s.tokens ≤ tokenCap) : s'.tokens ≤ tokenCap := by
  cases c with
  | tick =>
    simp only [rstep] at hs
    split at hs
    · injection hs with hs; subst hs; exact refillOnce_le _ h
    · cases hs
  | refillSecond =>
    simp only [rstep] at hs
    split at hs
    · injection hs with hs; subst hs; exact refillOnce_le _ h
    · cases hs
  | claim i =>
    simp only [rstep] at hs
    split at hs
    case _ j rest heqw heqq =>
      injection hs with hs; subst hs
      rw [setRW_tokens]; exact h
    case _ => cases hs
  | closedExit i =>
    simp only [rstep] at hs
    split at hs
    case _ heqw heqq =>
      split at hs
      · injection hs with hs; subst hs
        rw [setRW_tokens]; exact h
      · cases hs
    case _ => cases hs
  | acquire i =>
    simp only [rstep] at hs
    split at hs
    case _ j heqw =>
      split at hs
      case _ t heqt =>
        injection hs with hs; subst hs
        rw [setRW_tokens]
        simp only
        omega
      case _ => cases hs
    case _ => cases hs
  | work i =>
    simp only [rstep] at hs
    split at hs
    case _ j heqw =>
      injection hs with hs; subst hs
      rw [setRW_tokens]; exact h
    case _ => cases hs
  | push i =>
    simp only [rstep] at hs
    split at hs
    case _ j heqw =>
      split at hs
      · injection hs with hs; subst hs
        rw [setRW_tokens]; exact h
      · cases hs
    case _ => cases hs
  | mainSend =>
    simp only [rstep] at hs
    split at hs
    · split at hs
      · injection hs with hs; subst hs; exact h
      · cases hs
    · cases hs
  | mainClose =>
    simp only [rstep] at hs
    split at hs
    · split at hs
      · injection hs with hs; subst hs; exact h
      · cases hs
    · cases hs
  | mainRecv =>
    simp only [rstep] at hs
    split at hs
    case _ r rest heqm heqq =>
      split at hs
      · injection hs with hs; subst hs; exact h
      · cases hs
    case _ => cases hs
  | mainReturn =>
    simp only [rstep] at hs
    split at hs
    · split at hs
      · injection hs with hs; subst hs; exact h
      · cases hs
    · cases hs

theorem tokens_le_run {s t : RateState} {cs : List RChoice} (h : s.tokens ≤ tokenCap)
    (hr : rrun s cs = some t) : t.tokens ≤ tokenCap := by
  induction cs generalizing s with
  | nil => cases hr; assumption
  | cons c cs ih =>
    simp only [rrun] at hr
    cases hstep : rstep s c with
    | none => rw [hstep] at hr; cases hr
    | some s' =>
      rw [hstep] at hr
      exact ih (tokens_le_step hstep h) hr

/-- Claim C6: in every reachable state of the rate-limited pool the number
of buffered permits is at most the configured capacity of 2: each of the two
nonblocking refill sends per tick adds a permit only below capacity and is
discarded at capacity (`refillOnce tokenCap = tokenCap`), so the refill
process can never push the pool above `tokens`. -/
theorem c6_token_bound (s : RateState) (h : RReachable s) :
    s.tokens ≤ tokenCap ∧ refillOnce tokenCap = tokenCap := by
  obtain ⟨cs, hcs⟩ := h
  exact ⟨tokens_le_run (by simp [rateInit]) hcs, rfl⟩

/-- Claim C6 (witness): the bound evaluated after two full refill intervals,
where the attempts of the second interval are discarded at capacity. -/
theorem c6_witness :
    ((rrun rateInit [RChoice.tick, .refillSecond, .tick, .refillSecond]).getD rateInit).tokens
        ≤ tokenCap ∧ refillOnce tokenCap = tokenCap :=
  c6_token_bound ((rrun rateInit [RChoice.tick, .refillSecond, .tick, .refillSecond]).getD rateInit)
    ⟨[RChoice.tick, .refillSecond, .tick, .refillSecond], rfl⟩

theorem setRW_w (s : RateState) (i i' : WId) (v : RWState) :
    (setRW s i v).w i' = if i' = i then v else s.w i' := by
  cases i <;> cases i' <;> simp [setRW, RateState.w]

theorem setRW_resultsQ (s : RateState) (i : WId) (v : RWState) :
    (setRW s i v).resultsQ = s.resultsQ := by
  cases i <;> simp [setRW]

theorem setRW_refill (s : RateState) (i : WId) (v : RWState) :
    (setRW s i v).refill = s.refill := by
  cases i <;> simp [setRW]

theorem c10_inv_step {s s' : RateState} {c : RChoice} (hc : c ≠ .tick)
    (hs : rstep s c = some s')
    (h : s.tokens = 0 ∧ s.refill = .idle ∧ s.resultsQ = [] ∧ ∀ i, ¬ BegunProcessing s i) :
    s'.tokens = 0 ∧ s'.refill = .idle ∧ s'.resultsQ = [] ∧ ∀ i, ¬ BegunProcessing s' i := by
  obtain ⟨ht, hrf, hrq, hb⟩ := h
  cases c with
  | tick => exact absurd rfl hc
  | refillSecond =>
    simp only [rstep] at hs
    split at hs
    case _ heq => rw [hrf] at heq; cases heq
    case _ => cases hs
  | claim i =>
    simp only [rstep] at hs
    split at hs
    case _ j rest heqw heqq =>
      injection hs with hs; subst hs
      refine ⟨by rw [setRW_tokens]; exact ht, by rw [setRW_refill]; exact hrf,
        by rw [setRW_resultsQ]; exact hrq, ?_⟩
      intro i'
      simp only [BegunProcessing, setRW_w]
      split
      · simp
      · exact hb i'
    case _ => cases hs
  | closedExit i =>
    simp only [rstep] at hs
    split at hs
    case _ heqw heqq =>
      split at hs
      · injection hs with hs; subst hs
        refine ⟨by rw [setRW_tokens]; exact ht, by rw [setRW_refill]; exact hrf,
          by rw [setRW_resultsQ]; exact hrq, ?_⟩
        intro i'
        simp only [BegunProcessing, setRW_w]
        split
        · simp
        · exact hb i'
      · cases hs
    case _ => cases hs
  | acquire i =>
    simp only [rstep] at hs
    split at hs
    case _ j heqw =>
      split at hs
      case _ t heqt => omega
      case _ => cases hs
    case _ => cases hs
  | work i =>
    simp only [rstep] at hs
    split at hs
    case _ j heqw =>
      exact absurd (Or.inl ⟨j, heqw⟩) (hb i)
    case _ => cases hs
  | push i =>
    simp only [rstep] at hs
    split at hs
    case _ j heqw =>
      exact absurd (Or.inr ⟨j, heqw⟩) (hb i)
    case _ => cases hs
  | mainSend =>
    simp only [rstep] at hs
    split at hs
    · split at hs
      · injection hs with hs; subst hs
        exact ⟨ht, hrf, hrq, hb⟩
      · cases hs
    · cases hs
  | mainClose =>
    simp only [rstep] at hs
    split at hs
    · split at hs
      · injection hs with hs; subst hs
        exact ⟨ht, hrf, hrq, hb⟩
      · cases hs
    · cases hs
  | mainRecv =>
    simp only [rstep] at hs
    split at hs
    case _ r rest heqm heqq =>
      rw [hrq] at heqq; cases heqq
    case _ => cases hs
  | mainReturn =>
    simp only [rstep] at hs
    split at hs
    · split at hs
      · injection hs with hs; subst hs
        exact ⟨ht, hrf, hrq, hb⟩
      · cases hs
    · cases hs

theorem c10_inv_run {s t : RateState} {cs : List RChoice} (hnt : RChoice.tick ∉ cs)
    (h : s.tokens = 0 ∧ s.refill = .idle ∧ s.resultsQ = [] ∧ ∀ i, ¬ BegunProcessing s i)
    (hr : rrun s cs = some t) :
    t.tokens = 0 ∧ t.refill = .idle ∧ t.resultsQ = [] ∧ ∀ i, ¬ BegunProcessing t i := by
  induction cs generalizing s with
  | nil => cases hr; assumption
  | cons c cs ih =>
    simp only [List.mem_cons, not_or] at hnt
    simp only [rrun] at hr
    cases hstep : rstep s c with
    | none => rw [hstep] at hr; cases hr
    | some s' =>
      rw [hstep] at hr
      exact ih hnt.2 (c10_inv_step (fun he => hnt.1 he.symm) hstep h) hr

/-- Claim C10: the permit pool of the rate-limited pool starts empty, and in
any schedule in which the ticker has not yet fired — `time.NewTicker` first
fires only after one full interval — no permit exists, no worker has
acquired a token or begun processing a job, and no result has been
produced. -/
theorem c10_empty_start (cs : List RChoice) (s : RateState) (hnt : NoTick cs)
    (hr : rrun rateInit cs = some s) :
    rateInit.tokens = 0 ∧
    s.tokens = 0 ∧ s.resultsQ = [] ∧ ∀ i, ¬ BegunProcessing s i := by
  have h := c10_inv_run hnt
    (by refine ⟨rfl, rfl, rfl, ?_⟩
        intro i
        cases i <;> simp [BegunProcessing, RateState.w, rateInit]) hr
  exact ⟨rfl, h.1, h.2.2.1, h.2.2.2⟩

/-- Claim C10 (witness): a tickless schedule in which main sends a job and
worker 1 claims it: the worker is parked at the token wait, nothing has
begun processing. -/
theorem c10_witness :
    rateInit.tokens = 0 ∧
    ((rrun rateInit [RChoice.mainSend, .claim .one]).getD rateInit).tokens = 0 ∧
    ((rrun rateInit [RChoice.mainSend, .claim .one]).getD rateInit).resultsQ = [] ∧
    ∀ i, ¬ BegunProcessing ((rrun rateInit [RChoice.mainSend, .claim .one]).getD rateInit) i :=
  c10_empty_start [RChoice.mainSend, .claim .one]
    ((rrun rateInit [RChoice.mainSend, .claim .one]).getD rateInit)
    (by unfold NoTick; decide) rfl
